import Mathlib

/-!
Verification of the deepquor position-cache core against its specification.

The repository provides two headers: `qtypes.h` (inline value types:
`qSquare`, `qMove`, ...) and `qposhash.h` (the declaration of the growable
hash `qGrowHash` with its arena `qGrowHashEltHeap`; the member function
bodies live in a `.cpp` file that is not part of the sources, so those
operations are modelled from the specification, as marked on each
definition).

Machine integers are modelled as `Nat` with an explicit `% 256` where the
C++ code stores into a `guint8`.
-/

namespace Deepquor

/-! ### `qtypes.h`: `qSquare`

`qSquare` stores `guint8 squareNum` with `maxSquareNum = 80`.
The `(x, y)` constructor computes `SQUARE_VAL(x,y) = x + 9*y` and asserts
`x <= 8 && y <= 8`; the `squareId` constructor asserts `squareId <= 80`.
`qtypes.h` defines `NDEBUG` whenever `DEBUG` is not defined, so in the
default build the `assert` calls compile away and the constructors store
the (truncated) value unchecked.  We embed both build configurations;
a failed `assert` (debug build) is rendered as `none`. -/

/-- `qSquare::maxSquareNum` from `qtypes.h`. -/
def maxSquareNum : Nat := 80

namespace qSquare

/-- `qSquare(guint8 x, guint8 y)` in a debug build (`DEBUG` defined, so the
`assert((x<=8) && (y<=8))` is live): arguments are truncated to `guint8`,
the assert rejects out-of-range coordinates, and `squareNum = x + 9*y`
truncated to `guint8`. -/
def mkXY_debug (x y : Nat) : Option Nat :=
  if x % 256 ≤ 8 ∧ y % 256 ≤ 8 then some ((x % 256 + 9 * (y % 256)) % 256) else none

/-- `qSquare(guint8 x, guint8 y)` in the default build (`qtypes.h` defines
`NDEBUG` when `DEBUG` is unset, so `assert` is a no-op): the constructor
always succeeds and stores `x + 9*y` truncated to `guint8`, unchecked. -/
def mkXY_ndebug (x y : Nat) : Option Nat :=
  some ((x % 256 + 9 * (y % 256)) % 256)

/-- `qSquare(guint8 squareId)` in a debug build: `assert(squareId <= maxSquareNum)`. -/
def mkId_debug (squareId : Nat) : Option Nat :=
  if squareId % 256 ≤ maxSquareNum then some (squareId % 256) else none

/-- `qSquare(guint8 squareId)` in the default (`NDEBUG`) build: unchecked. -/
def mkId_ndebug (squareId : Nat) : Option Nat :=
  some (squareId % 256)

end qSquare

/-! ### `qtypes.h`: `qMove`

A move is one `guint8`.  The encoding documented in the source comment:
bit 0 set means wall drop; bit 1 row (set) vs column (clear);
`(0x1f & mv) >> 2` the row/column number; `mv >> 5` the position.
The wall constructor however computes `(posNo<<5)|(rowColNo<<3)|(RowOrCol)`. -/

namespace qMove

/-- `qMove(bool RowOrCol, guint8 rowColNo, guint8 posNo)` from `qtypes.h`:
`move = (posNo<<5)|(rowColNo<<3)|(RowOrCol)`, stored into a `guint8`. -/
def mkWall (rowOrCol : Bool) (rowColNo posNo : Nat) : Nat :=
  (Nat.lor (Nat.lor (Nat.shiftLeft (posNo % 256) 5) (Nat.shiftLeft (rowColNo % 256) 3))
    (if rowOrCol then 1 else 0)) % 256

/-- `isWallMove()`: `move & 0x01` (as a C++ `bool`). -/
def isWallMove (move : Nat) : Bool := Nat.land move 1 ≠ 0

/-- `wallMoveIsRow()`: `move & 0x02` (as a C++ `bool`). -/
def wallMoveIsRow (move : Nat) : Bool := Nat.land move 2 ≠ 0

/-- `wallMoveIsCol()`: `!(move & 0x02)`. -/
def wallMoveIsCol (move : Nat) : Bool := Nat.land move 2 = 0

/-- `wallRowOrColNo()`: `(move & 0x1f) >> 2`. -/
def wallRowOrColNo (move : Nat) : Nat := Nat.shiftRight (Nat.land move 31) 2

/-- `wallPosition()`: `move >> 5`. -/
def wallPosition (move : Nat) : Nat := Nat.shiftRight move 5

end qMove

/-! ### `qposhash.h`: the arena `qGrowHashEltHeap`

`qposhash.h` declares `qGrowHashEltHeap` with fields `currBlock`,
`currBlockAvailElts`, `freeEltList` and `blocks2free`, but the member
function bodies (`eltAlloc`, `eltFree`, constructor, destructor) live in a
`.cpp` file that is not among the sources, so they are modelled from the
specification.  Element storage is represented by a handle
`(block index, slot index)`; blocks are numbered in allocation order. -/

/-- A reference to one Element's storage: `(block index, slot index)`. -/
abbrev Handle := Nat × Nat

/-- Modelled from the spec: the arena state.  `blockSize` is the configured
grow increment (number of Element slots per Block); `numBlocks` counts the
Blocks allocated so far (the current Block, when one exists, is the block
with index `numBlocks - 1`); `currBlockAvailElts` is the number of unused
slots remaining in the current Block; `freeEltList` holds freed slots
reusable regardless of originating Block; `blocks2free` is the internal
release list of retired Block indices. -/
structure qGrowHashEltHeap where
  blockSize : Nat
  numBlocks : Nat
  currBlockAvailElts : Nat
  freeEltList : List Handle
  blocks2free : List Nat
  deriving DecidableEq, Repr

namespace qGrowHashEltHeap

/-- Modelled from the spec: a freshly constructed arena with grow increment
`B`: no Block allocated yet, empty free list, empty release list. -/
def fresh (B : Nat) : qGrowHashEltHeap :=
  { blockSize := B, numBlocks := 0, currBlockAvailElts := 0,
    freeEltList := [], blocks2free := [] }

/-- Modelled from the spec (`eltAlloc`, whose body is missing from the
sources): prefers the free list (pop one entry) if non-empty; otherwise
draws the next slot from the current Block if it has remaining capacity;
otherwise allocates a new Block of `blockSize` slots, retires the previous
Block (when one exists) onto the release list, and draws the new Block's
first slot. -/
def eltAlloc (s : qGrowHashEltHeap) : Handle × qGrowHashEltHeap :=
  match s.freeEltList with
  | h :: rest => (h, { s with freeEltList := rest })
  | [] =>
    if 0 < s.currBlockAvailElts then
      ((s.numBlocks - 1, s.blockSize - s.currBlockAvailElts),
       { s with currBlockAvailElts := s.currBlockAvailElts - 1 })
    else
      ((s.numBlocks, 0),
       { s with numBlocks := s.numBlocks + 1,
                currBlockAvailElts := s.blockSize - 1,
                blocks2free :=
                  if s.numBlocks = 0 then s.blocks2free
                  else (s.numBlocks - 1) :: s.blocks2free })

/-- Modelled from the spec (`eltFree`, whose body is missing from the
sources): pushes the slot onto the free list; no shrinking, no cleanup. -/
def eltFree (s : qGrowHashEltHeap) (h : Handle) : qGrowHashEltHeap :=
  { s with freeEltList := h :: s.freeEltList }

/-- `n` consecutive `eltAlloc` calls, discarding the returned handles. -/
def allocSteps : Nat → qGrowHashEltHeap → qGrowHashEltHeap
  | 0, s => s
  | n + 1, s => allocSteps n (eltAlloc s).2

end qGrowHashEltHeap

/-! ### `qposhash.h`: the growable hash `qGrowHash`

`qposhash.h` declares `getElt`, `addElt`, `rmElt` and the private fields
`numElts`, `hashBuffer` (array of buckets), `posHeap`, `hashCbFunc`,
`initCbFunc`, but the member bodies are in a `.cpp` file not among the
sources; they are modelled from the specification.  Buckets are chains of
handles into the arena; `store` gives the current contents (key, value) of
every slot (uninitialized slots hold junk, which the model represents by
whatever `store` currently says). -/

/-- Modelled from the spec: the table state.  The bucket used for a key is
the hash callback's value modulo `bucketCount` (the source comment:
"the value used for hashing will actually be the hashFunc's return value
modulo POSITION_HASH_BUCKETS"). -/
structure qGrowHash (K V : Type) where
  bucketCount : Nat
  hashCbFunc : K → Nat
  initCbFunc : Option (K → V → V)
  hashBuffer : Nat → List Handle
  store : Handle → K × V
  numElts : Nat
  posHeap : qGrowHashEltHeap

namespace qGrowHash

variable {K V : Type} [DecidableEq K]

/-- Modelled from the spec: a freshly constructed table with `bc` buckets,
hash callback `hf`, optional init hook `ini`, and arena grow increment `B`.
`k0, v0` stand for the junk contents of uninitialized storage. -/
def fresh (K V : Type) (bc : Nat) (hf : K → Nat) (ini : Option (K → V → V))
    (k0 : K) (v0 : V) (B : Nat) : qGrowHash K V :=
  { bucketCount := bc, hashCbFunc := hf, initCbFunc := ini,
    hashBuffer := fun _ => [], store := fun _ => (k0, v0),
    numElts := 0, posHeap := qGrowHashEltHeap.fresh B }

/-- The bucket index for a key: hash value modulo the bucket count. -/
def bucketOf (t : qGrowHash K V) (k : K) : Nat :=
  t.hashCbFunc k % t.bucketCount

/-- Linear scan of a chain for the first handle whose stored key equals `k`. -/
def chainFind (store : Handle → K × V) (k : K) : List Handle → Option Handle
  | [] => none
  | h :: rest => if (store h).1 = k then some h else chainFind store k rest

/-- Write the key field of slot `h` (the value field is left as-is,
i.e. uninitialized junk until the init hook or the caller writes it). -/
def writeKey (st : Handle → K × V) (h : Handle) (k : K) : Handle → K × V :=
  fun h2 => if h2 = h then (k, (st h2).2) else st h2

/-- Write the value field of slot `h`. -/
def writeVal (st : Handle → K × V) (h : Handle) (v : V) : Handle → K × V :=
  fun h2 => if h2 = h then ((st h2).1, v) else st h2

/-- Modelled from the spec (`getElt`, whose body is missing from the
sources): computes the bucket, scans its chain for the first key match,
returns a reference to the matching Element or not-found; never mutates. -/
def getElt (t : qGrowHash K V) (k : K) : Option Handle :=
  chainFind t.store k (t.hashBuffer (t.bucketOf k))

/-- Modelled from the spec (`addElt`, whose body is missing from the
sources): obtains storage via the arena's `eltAlloc`, writes the key into
the slot, runs the init hook on the value slot if configured, prepends the
new Element to its bucket's chain, increments `numElts`, and returns the
new Element's reference (through which the caller populates the value). -/
def addElt (t : qGrowHash K V) (k : K) : Handle × qGrowHash K V :=
  let a := t.posHeap.eltAlloc
  let h := a.1
  let b := t.bucketOf k
  let st1 := writeKey t.store h k
  let st2 := match t.initCbFunc with
    | some f => writeVal st1 h (f k (st1 h).2)
    | none => st1
  (h, { t with posHeap := a.2, store := st2,
               hashBuffer := Function.update t.hashBuffer b (h :: t.hashBuffer b),
               numElts := t.numElts + 1 })

/-- The caller writing value `v` through the reference returned by `addElt`
or `getElt`. -/
def setVal (t : qGrowHash K V) (h : Handle) (v : V) : qGrowHash K V :=
  { t with store := writeVal t.store h v }

/-- Scan a chain for the first key match; on a hit, return the matching
handle and the chain with that one link removed. -/
def chainRemoveFirst (store : Handle → K × V) (k : K) :
    List Handle → Option (Handle × List Handle)
  | [] => none
  | h :: rest =>
    if (store h).1 = k then some (h, rest)
    else (chainRemoveFirst store k rest).map (fun p => (p.1, h :: p.2))

/-- Modelled from the spec (`rmElt`, whose body is missing from the
sources): computes the bucket, scans for the first matching key; if found,
unlinks it from the chain, returns its storage to the arena's free list via
`eltFree`, decrements `numElts`, and reports success; otherwise reports
failure and changes nothing. -/
def rmElt (t : qGrowHash K V) (k : K) : Bool × qGrowHash K V :=
  match chainRemoveFirst t.store k (t.hashBuffer (t.bucketOf k)) with
  | none => (false, t)
  | some (h, rest) =>
    (true, { t with hashBuffer := Function.update t.hashBuffer (t.bucketOf k) rest,
                    posHeap := t.posHeap.eltFree h,
                    numElts := t.numElts - 1 })

/-- Insert a list of keys, one `addElt` each, discarding the references. -/
def addList : qGrowHash K V → List K → qGrowHash K V
  | t, [] => t
  | t, k :: ks => addList (t.addElt k).2 ks

/-- Remove a list of keys, one `rmElt` each; also returns the number of
removals that reported success. -/
def rmList : qGrowHash K V → List K → qGrowHash K V × Nat
  | t, [] => (t, 0)
  | t, k :: ks =>
    let r := t.rmElt k
    let rest := rmList r.2 ks
    (rest.1, (if r.1 then 1 else 0) + rest.2)

/-- The number of Elements currently linked into bucket chains. -/
def liveCount (t : qGrowHash K V) : Nat :=
  Finset.sum (Finset.range t.bucketCount) (fun i => (t.hashBuffer i).length)

/-- How many Elements of the bucket chain that `getElt k` would scan
currently store key `k`. -/
def keyCount (t : qGrowHash K V) (k : K) : Nat :=
  (t.hashBuffer (t.bucketOf k)).countP (fun h => decide ((t.store h).1 = k))

/-- The table states reachable from a freshly constructed table (with a
positive bucket count) by the public operations and by callers writing
values through returned references. -/
inductive Reachable (K V : Type) [DecidableEq K] (k0 : K) (v0 : V) :
    qGrowHash K V → Prop where
  | fresh (bc : Nat) (hf : K → Nat) (ini : Option (K → V → V)) (B : Nat)
      (hbc : 0 < bc) : Reachable K V k0 v0 (qGrowHash.fresh K V bc hf ini k0 v0 B)
  | add (t : qGrowHash K V) (k : K) :
      Reachable K V k0 v0 t → Reachable K V k0 v0 (t.addElt k).2
  | set (t : qGrowHash K V) (h : Handle) (v : V) :
      Reachable K V k0 v0 t → Reachable K V k0 v0 (t.setVal h v)
  | rm (t : qGrowHash K V) (k : K) :
      Reachable K V k0 v0 t → Reachable K V k0 v0 (t.rmElt k).2

end qGrowHash

/-! ### The Tiered Cache Manager

`qposhash.h` only documents this layer in its leading comment ("keep 20
position hashes, each one corresponding to the number of played walls");
no implementation exists in the sources, so it is modelled from the
specification. -/

/-- Modelled from the spec: the Cache Manager owns one optional table per
walls-placed count `0..maxW`; a discarded-and-not-replaced tier is `none`. -/
structure qCacheManager (K V : Type) where
  maxW : Nat
  tiers : Nat → Option (qGrowHash K V)

namespace qCacheManager

variable {K V : Type} [DecidableEq K]

/-- Modelled from the spec: discarding tier `i` destroys that tier's table
completely and either removes it from the active set (`repl = none`) or
replaces it with a freshly constructed empty table (`repl = some fresh`);
no other tier's storage is touched. -/
def discardTier (m : qCacheManager K V) (i : Nat)
    (repl : Option (qGrowHash K V)) : qCacheManager K V :=
  { m with tiers := fun j => if j = i then repl else m.tiers j }

/-- Modelled from the spec: a lookup routed to tier `j`. -/
def tierLookup (m : qCacheManager K V) (j : Nat) (k : K) : Option Handle :=
  match m.tiers j with
  | none => none
  | some t => t.getElt k

end qCacheManager

end Deepquor

namespace Deepquor

/-! ### Helper lemmas -/

open qGrowHash qGrowHashEltHeap in
/-- Updating one bucket changes the total chain length by the difference of
that bucket's old and new chain lengths. -/
theorem sum_len_update (f : Nat → List Handle) (bc b : Nat) (L : List Handle)
    (hb : b < bc) :
    Finset.sum (Finset.range bc) (fun i => (Function.update f b L i).length)
        + (f b).length
      = Finset.sum (Finset.range bc) (fun i => (f i).length) + L.length := by
  have hbmem : b ∈ Finset.range bc := Finset.mem_range.mpr hb
  have h1 : Finset.sum (Finset.range bc) (fun i => (Function.update f b L i).length)
      = L.length + Finset.sum ((Finset.range bc).erase b) (fun i => (f i).length) := by
    rw [← Finset.add_sum_erase _ _ hbmem]
    congr 1
    · simp
    · refine Finset.sum_congr rfl ?_
      intro i hi
      have hib : i ≠ b := (Finset.mem_erase.mp hi).1
      simp [Function.update, hib]
  have h2 : Finset.sum (Finset.range bc) (fun i => (f i).length)
      = (f b).length + Finset.sum ((Finset.range bc).erase b) (fun i => (f i).length) :=
    (Finset.add_sum_erase _ _ hbmem).symm
  omega

namespace qGrowHash

variable {K V : Type} [DecidableEq K]

/-- A successful chain removal shortens the chain by exactly one link. -/
theorem chainRemoveFirst_length (store : Handle → K × V) (k : K) :
    ∀ (l : List Handle) (h : Handle) (l2 : List Handle),
      chainRemoveFirst store k l = some (h, l2) → l.length = l2.length + 1 := by
  intro l
  induction l with
  | nil => intro h l2 hc; simp [chainRemoveFirst] at hc
  | cons hd tl ih =>
    intro h l2 hc
    by_cases hk : (store hd).1 = k
    · simp [chainRemoveFirst, hk] at hc
      simp [← hc.2]
    · simp only [chainRemoveFirst, hk, if_false] at hc
      cases hc2 : chainRemoveFirst store k tl with
      | none => rw [hc2] at hc; simp at hc
      | some p =>
        rw [hc2] at hc
        simp at hc
        have hlen := ih p.1 p.2 (by rw [hc2])
        obtain ⟨hc3, hc4⟩ := hc
        rw [← hc4]
        simp
        omega

/-- A successful chain removal removes exactly one matching link: the count
of links storing key `k` drops by one. -/
theorem chainRemoveFirst_countP (store : Handle → K × V) (k : K) :
    ∀ (l : List Handle) (h : Handle) (l2 : List Handle),
      chainRemoveFirst store k l = some (h, l2) →
      l.countP (fun h2 => decide ((store h2).1 = k))
        = l2.countP (fun h2 => decide ((store h2).1 = k)) + 1 := by
  intro l
  induction l with
  | nil => intro h l2 hc; simp [chainRemoveFirst] at hc
  | cons hd tl ih =>
    intro h l2 hc
    by_cases hk : (store hd).1 = k
    · simp [chainRemoveFirst, hk] at hc
      simp [List.countP_cons, hk, ← hc.2]
    · simp only [chainRemoveFirst, hk, if_false] at hc
      cases hc2 : chainRemoveFirst store k tl with
      | none => rw [hc2] at hc; simp at hc
      | some p =>
        rw [hc2] at hc
        simp at hc
        have hcnt := ih p.1 p.2 (by rw [hc2])
        obtain ⟨hc3, hc4⟩ := hc
        rw [← hc4]
        simp [List.countP_cons, hk]
        omega

/-- A chain containing no link storing key `k` yields a not-found scan. -/
theorem chainFind_eq_none (store : Handle → K × V) (k : K) :
    ∀ l : List Handle,
      l.countP (fun h2 => decide ((store h2).1 = k)) = 0 →
      chainFind store k l = none := by
  intro l
  induction l with
  | nil => intro _; rfl
  | cons hd tl ih =>
    intro hz
    rw [List.countP_cons] at hz
    by_cases hk : (store hd).1 = k
    · simp [hk] at hz
    · simp only [chainFind, hk, if_false]
      exact ih (by omega)

/-- The field-level description of `addElt`, with the caller then writing
`v` through the returned reference: the new Element sits at the head of its
bucket's chain, stores `(k, v)`, and `getElt k` finds exactly it. -/
theorem addElt_head (t : qGrowHash K V) (k : K) (v : V) :
    (((t.addElt k).2.setVal (t.addElt k).1 v).getElt k = some (t.addElt k).1)
    ∧ (((t.addElt k).2.setVal (t.addElt k).1 v).store (t.addElt k).1 = (k, v))
    ∧ ((t.addElt k).2.hashBuffer ((t.addElt k).2.bucketOf k)
        = (t.addElt k).1 :: t.hashBuffer (t.bucketOf k))
    ∧ ((t.addElt k).2.bucketOf k = t.bucketOf k) := by
  have hkey : ((t.addElt k).2.store (t.addElt k).1).1 = k := by
    cases hini : t.initCbFunc with
    | none => simp [addElt, hini, writeKey]
    | some f => simp [addElt, hini, writeKey, writeVal]
  have hbuck : (t.addElt k).2.bucketOf k = t.bucketOf k := by
    cases hini : t.initCbFunc <;> simp [addElt, hini, bucketOf]
  have hchain : (t.addElt k).2.hashBuffer ((t.addElt k).2.bucketOf k)
      = (t.addElt k).1 :: t.hashBuffer (t.bucketOf k) := by
    rw [hbuck]
    cases hini : t.initCbFunc <;> simp [addElt, hini]
  have hstore : ((t.addElt k).2.setVal (t.addElt k).1 v).store (t.addElt k).1 = (k, v) := by
    simp [setVal, writeVal, hkey]
  refine ⟨?_, hstore, hchain, hbuck⟩
  rw [getElt]
  have e1 : ((t.addElt k).2.setVal (t.addElt k).1 v).hashBuffer
      (((t.addElt k).2.setVal (t.addElt k).1 v).bucketOf k)
      = (t.addElt k).1 :: t.hashBuffer (t.bucketOf k) := hchain
  rw [e1]
  simp only [chainFind]
  have e2 : (((t.addElt k).2.setVal (t.addElt k).1 v).store (t.addElt k).1).1 = k := by
    rw [hstore]
  rw [if_pos e2]

end qGrowHash

namespace qGrowHashEltHeap

/-- Invariant of repeated allocation with an empty free list: after `m`
further allocations the free list is still empty, the grow increment is
unchanged, every slot of every allocated Block is either handed out or
still available in the current Block, and fewer than one Block's worth of
slots is still available. -/
theorem allocSteps_inv (B : Nat) (hB : 0 < B) :
    ∀ (m n : Nat) (s : qGrowHashEltHeap),
      s.blockSize = B → s.freeEltList = [] →
      s.numBlocks * B = n + s.currBlockAvailElts → s.currBlockAvailElts < B →
      (allocSteps m s).blockSize = B
      ∧ (allocSteps m s).freeEltList = []
      ∧ (allocSteps m s).numBlocks * B = (n + m) + (allocSteps m s).currBlockAvailElts
      ∧ (allocSteps m s).currBlockAvailElts < B := by
  intro m
  induction m with
  | zero =>
    intro n s h1 h2 h3 h4
    exact ⟨h1, h2, by simpa using h3, h4⟩
  | succ m ih =>
    intro n s h1 h2 h3 h4
    rw [allocSteps]
    by_cases hc : 0 < s.currBlockAvailElts
    · have hstep : (s.eltAlloc).2 = { s with currBlockAvailElts := s.currBlockAvailElts - 1 } := by
        simp [eltAlloc, h2, hc]
      rw [hstep]
      obtain ⟨a, b, c, d⟩ :=
        ih (n + 1) { s with currBlockAvailElts := s.currBlockAvailElts - 1 } h1 h2
          (show s.numBlocks * B = (n + 1) + (s.currBlockAvailElts - 1) by omega)
          (show s.currBlockAvailElts - 1 < B by omega)
      exact ⟨a, b, by omega, d⟩
    · have hz : s.currBlockAvailElts = 0 := by omega
      have hstep : (s.eltAlloc).2 = { s with
          numBlocks := s.numBlocks + 1,
          currBlockAvailElts := s.blockSize - 1,
          blocks2free := if s.numBlocks = 0 then s.blocks2free
            else (s.numBlocks - 1) :: s.blocks2free } := by
        simp [eltAlloc, h2, hz]
      rw [hstep]
      have hmul : (s.numBlocks + 1) * B = s.numBlocks * B + B := Nat.succ_mul _ _
      obtain ⟨a, b, c, d⟩ :=
        ih (n + 1) { s with
            numBlocks := s.numBlocks + 1,
            currBlockAvailElts := s.blockSize - 1,
            blocks2free := if s.numBlocks = 0 then s.blocks2free
              else (s.numBlocks - 1) :: s.blocks2free } h1 h2
          (show (s.numBlocks + 1) * B = (n + 1) + (s.blockSize - 1) by rw [hmul, h1]; omega)
          (show s.blockSize - 1 < B by rw [h1]; omega)
      exact ⟨a, b, by omega, d⟩

end qGrowHashEltHeap

namespace qGrowHash

variable {K V : Type} [DecidableEq K]

omit [DecidableEq K] in
/-- `addList` drives the arena through one `eltAlloc` per inserted key. -/
theorem addList_posHeap :
    ∀ (ks : List K) (t : qGrowHash K V),
      (addList t ks).posHeap = qGrowHashEltHeap.allocSteps ks.length t.posHeap := by
  intro ks
  induction ks with
  | nil => intro t; rfl
  | cons k ks ih =>
    intro t
    rw [addList, ih, List.length_cons, qGrowHashEltHeap.allocSteps]
    rfl

/-- If nb·B slots cover exactly n handed-out slots plus a remainder below B,
then nb is the ceiling of n / B. -/
theorem eq_ceil_div (B nb n r : Nat) (hB : 0 < B) (h : nb * B = n + r) (hr : r < B) :
    nb = (n + B - 1) / B := by
  have h1 : n + B - 1 = (B - 1 - r) + (n + r) := by omega
  rw [h1, ← h, Nat.add_mul_div_right _ _ hB, Nat.div_eq_of_lt (by omega)]
  omega

/-- The arena effect of one `rmElt`: Blocks are untouched, and the free
list grows by one exactly when the removal reports success. -/
theorem rmElt_posHeap (t : qGrowHash K V) (k : K) :
    (t.rmElt k).2.posHeap.numBlocks = t.posHeap.numBlocks
    ∧ (t.rmElt k).2.posHeap.blocks2free = t.posHeap.blocks2free
    ∧ (t.rmElt k).2.posHeap.freeEltList.length
        = t.posHeap.freeEltList.length + (if (t.rmElt k).1 then 1 else 0) := by
  cases hrm : chainRemoveFirst t.store k (t.hashBuffer (t.bucketOf k)) with
  | none => simp [rmElt, hrm]
  | some p =>
    obtain ⟨h, rest⟩ := p
    simp [rmElt, hrm, qGrowHashEltHeap.eltFree]

/-- The arena effect of a removal sequence: Blocks are untouched and the
free list grows by the number of successful removals. -/
theorem rmList_posHeap :
    ∀ (ks : List K) (t : qGrowHash K V),
      (rmList t ks).1.posHeap.numBlocks = t.posHeap.numBlocks
      ∧ (rmList t ks).1.posHeap.blocks2free = t.posHeap.blocks2free
      ∧ (rmList t ks).1.posHeap.freeEltList.length
          = t.posHeap.freeEltList.length + (rmList t ks).2 := by
  intro ks
  induction ks with
  | nil => intro t; exact ⟨rfl, rfl, by simp [rmList]⟩
  | cons k ks ih =>
    intro t
    have hdef1 : (rmList t (k :: ks)).1 = (rmList (t.rmElt k).2 ks).1 := rfl
    have hdef2 : (rmList t (k :: ks)).2
        = (if (t.rmElt k).1 then 1 else 0) + (rmList (t.rmElt k).2 ks).2 := rfl
    rw [hdef1, hdef2]
    obtain ⟨a, b, c⟩ := ih (t.rmElt k).2
    obtain ⟨a2, b2, c2⟩ := rmElt_posHeap t k
    refine ⟨a.trans a2, b.trans b2, by omega⟩

omit [DecidableEq K] in
/-- Inserting no more keys than the free list holds slots draws every
Element from the free list: the set of allocated Blocks is unchanged. -/
theorem addList_no_growth :
    ∀ (ks : List K) (t : qGrowHash K V),
      ks.length ≤ t.posHeap.freeEltList.length →
      (addList t ks).posHeap.numBlocks = t.posHeap.numBlocks
      ∧ (addList t ks).posHeap.blocks2free = t.posHeap.blocks2free
      ∧ (addList t ks).posHeap.freeEltList.length
          = t.posHeap.freeEltList.length - ks.length := by
  intro ks
  induction ks with
  | nil => intro t h; exact ⟨rfl, rfl, by simp [addList]⟩
  | cons k ks ih =>
    intro t hlen
    cases hfree : t.posHeap.freeEltList with
    | nil => rw [hfree] at hlen; simp at hlen
    | cons hd tl =>
      have hheap : (t.addElt k).2.posHeap = { t.posHeap with freeEltList := tl } := by
        have hheap0 : (t.addElt k).2.posHeap = (t.posHeap.eltAlloc).2 := rfl
        rw [hheap0]
        simp [qGrowHashEltHeap.eltAlloc, hfree]
      have hdef : addList t (k :: ks) = addList (t.addElt k).2 ks := rfl
      rw [hdef]
      have hlen2 : tl.length + 1 = t.posHeap.freeEltList.length := by rw [hfree]; rfl
      simp only [List.length_cons] at hlen
      obtain ⟨a, b, c⟩ := ih (t.addElt k).2
        (by rw [hheap]; show ks.length ≤ tl.length; omega)
      rw [hheap] at a b c
      refine ⟨a, b, ?_⟩
      simp only [List.length_cons] at c ⊢
      omega

/-- The numElts effect of a successful removal. -/
theorem rmElt_numElts_true (t : qGrowHash K V) (k : K)
    (hs : (t.rmElt k).1 = true) : (t.rmElt k).2.numElts = t.numElts - 1 := by
  cases hrm : chainRemoveFirst t.store k (t.hashBuffer (t.bucketOf k)) with
  | none => simp [rmElt, hrm] at hs
  | some p =>
    obtain ⟨h, rest⟩ := p
    simp [rmElt, hrm]

/-- A failed removal changes nothing at all. -/
theorem rmElt_false_id (t : qGrowHash K V) (k : K)
    (hf : (t.rmElt k).1 = false) : (t.rmElt k).2 = t := by
  cases hrm : chainRemoveFirst t.store k (t.hashBuffer (t.bucketOf k)) with
  | none => simp [rmElt, hrm]
  | some p =>
    obtain ⟨h, rest⟩ := p
    simp [rmElt, hrm] at hf

/-- The bookkeeping invariant of every reachable table: the bucket count is
positive and `numElts` equals the number of Elements linked into chains. -/
theorem reachable_inv (k0 : K) (v0 : V) :
    ∀ t : qGrowHash K V, Reachable K V k0 v0 t →
      0 < t.bucketCount ∧ t.numElts = t.liveCount := by
  intro t hr
  induction hr with
  | fresh bc hf ini B hbc =>
    refine ⟨hbc, ?_⟩
    simp [fresh, liveCount]
  | add t k hprev ih =>
    obtain ⟨hbc, hnum⟩ := ih
    refine ⟨hbc, ?_⟩
    have hb : t.bucketOf k < t.bucketCount := Nat.mod_lt _ hbc
    have hsum := sum_len_update t.hashBuffer t.bucketCount (t.bucketOf k)
      ((t.addElt k).1 :: t.hashBuffer (t.bucketOf k)) hb
    rw [liveCount] at hnum
    show t.numElts + 1
        = Finset.sum (Finset.range t.bucketCount)
            (fun i => (Function.update t.hashBuffer (t.bucketOf k)
              ((t.addElt k).1 :: t.hashBuffer (t.bucketOf k)) i).length)
    simp only [List.length_cons] at hsum
    omega
  | set t h v hprev ih => exact ih
  | rm t k hprev ih =>
    obtain ⟨hbc, hnum⟩ := ih
    cases hrm : chainRemoveFirst t.store k (t.hashBuffer (t.bucketOf k)) with
    | none =>
      have hid : t.rmElt k = (false, t) := by simp [rmElt, hrm]
      rw [hid]
      exact ⟨hbc, hnum⟩
    | some p =>
      obtain ⟨h, rest⟩ := p
      have hr2 : t.rmElt k = (true, { t with
          hashBuffer := Function.update t.hashBuffer (t.bucketOf k) rest,
          posHeap := t.posHeap.eltFree h,
          numElts := t.numElts - 1 }) := by simp [rmElt, hrm]
      rw [hr2]
      refine ⟨hbc, ?_⟩
      have hb : t.bucketOf k < t.bucketCount := Nat.mod_lt _ hbc
      have hsum := sum_len_update t.hashBuffer t.bucketCount (t.bucketOf k) rest hb
      have hlen := chainRemoveFirst_length t.store k (t.hashBuffer (t.bucketOf k)) h rest hrm
      rw [liveCount] at hnum
      show t.numElts - 1
          = Finset.sum (Finset.range t.bucketCount)
              (fun i => (Function.update t.hashBuffer (t.bucketOf k) rest i).length)
      omega

end qGrowHash

/-! ### Theorems for claims about `qtypes.h` -/

/-- C2 counterexample: the claim says out-of-range construction is rejected
with a checked, recoverable error "in every build configuration".  In the
default build (`qtypes.h` defines `NDEBUG` whenever `DEBUG` is not set),
`qSquare(9, 9)` is accepted and silently stores `squareNum = 90 > 80`:
no rejection happens. -/
theorem qSquare_release_accepts_out_of_range :
    qSquare.mkXY_ndebug 9 9 = some 90 ∧ maxSquareNum < 90 ∧
      qSquare.mkId_ndebug 81 = some 81 ∧ maxSquareNum < 81 := by
  decide

/-- C2 (amended): the range check on `qSquare` construction exists only in
debug builds.  In a debug build the constructor rejects any out-of-range
coordinates (`x > 8` or `y > 8`, resp. `squareId > 80`) and every accepted
square satisfies `squareNum ≤ maxSquareNum`; in the default (`NDEBUG`)
build the constructors never reject anything. -/
theorem qSquare_range_check_debug_only :
    (∀ x y : Nat, x < 256 → y < 256 → (8 < x ∨ 8 < y) → qSquare.mkXY_debug x y = none)
    ∧ (∀ x y n : Nat, qSquare.mkXY_debug x y = some n → n ≤ maxSquareNum)
    ∧ (∀ s : Nat, s < 256 → maxSquareNum < s → qSquare.mkId_debug s = none)
    ∧ (∀ s n : Nat, qSquare.mkId_debug s = some n → n ≤ maxSquareNum)
    ∧ (∀ x y : Nat, qSquare.mkXY_ndebug x y = some ((x % 256 + 9 * (y % 256)) % 256))
    ∧ (∀ s : Nat, qSquare.mkId_ndebug s = some (s % 256)) := by
  refine ⟨?_, ?_, ?_, ?_, fun _ _ => rfl, fun _ => rfl⟩
  · intro x y hx hy hout
    have hx2 : x % 256 = x := Nat.mod_eq_of_lt hx
    have hy2 : y % 256 = y := Nat.mod_eq_of_lt hy
    simp only [qSquare.mkXY_debug, hx2, hy2]
    rw [if_neg]
    omega
  · intro x y n h
    simp only [qSquare.mkXY_debug] at h
    split at h
    · rename_i hin
      have hle : x % 256 + 9 * (y % 256) ≤ 80 := by omega
      have := Option.some.inj h
      have hm : (x % 256 + 9 * (y % 256)) % 256 = x % 256 + 9 * (y % 256) :=
        Nat.mod_eq_of_lt (by omega)
      simp only [maxSquareNum]
      omega
    · exact absurd h (by simp)
  · intro s hs hout
    have hs2 : s % 256 = s := Nat.mod_eq_of_lt hs
    simp only [qSquare.mkId_debug, hs2]
    rw [if_neg]
    omega
  · intro s n h
    simp only [qSquare.mkId_debug] at h
    split at h
    · rename_i hin
      have := Option.some.inj h
      omega
    · exact absurd h (by simp)

/-- C2 witness: the debug-build constructor rejects `x = 9, y = 0`. -/
theorem qSquare_range_check_debug_only_witness :
    qSquare.mkXY_debug 9 0 = none :=
  qSquare_range_check_debug_only.1 9 0 (by decide) (by decide) (by decide)

/-- C10 (code bug): the wall-move constructor does not match the documented
move encoding that the accessors implement.  Evaluating the code:
`qMove(COL, 1, 0)` encodes to `8`, for which `isWallMove()` is *false* and
`wallRowOrColNo()` is `2`, not `1`; `qMove(ROW, 2, 3)` encodes to `113`,
for which `wallMoveIsRow()` is *false* and `wallRowOrColNo()` is `4`, not
`2`; `qMove(ROW, 4, 0)` encodes to `33`, for which `wallPosition()` is `1`,
not `0`.  So the accessors do not recover the construction. -/
theorem qMove_wall_constructor_mismatch :
    qMove.mkWall false 1 0 = 8
    ∧ qMove.isWallMove (qMove.mkWall false 1 0) = false
    ∧ qMove.wallRowOrColNo (qMove.mkWall false 1 0) = 2
    ∧ qMove.mkWall true 2 3 = 113
    ∧ qMove.isWallMove (qMove.mkWall true 2 3) = true
    ∧ qMove.wallMoveIsRow (qMove.mkWall true 2 3) = false
    ∧ qMove.wallRowOrColNo (qMove.mkWall true 2 3) = 4
    ∧ qMove.mkWall true 4 0 = 33
    ∧ qMove.wallPosition (qMove.mkWall true 4 0) = 1 := by
  decide

/-! ### Theorems for claims about the arena, table and cache manager -/

/-- C1: `eltAlloc` chooses its storage source in this order: a non-empty
free list is popped (no Block touched); otherwise a current Block with
remaining capacity supplies the next slot; otherwise a new Block of the
configured grow-increment size is allocated, the previous Block (when one
exists) is retired onto the release list, and the new Block supplies the
slot. -/
theorem eltAlloc_source_order (s : qGrowHashEltHeap) :
    (∀ (h : Handle) (rest : List Handle), s.freeEltList = h :: rest →
      s.eltAlloc.1 = h ∧ s.eltAlloc.2.freeEltList = rest
      ∧ s.eltAlloc.2.numBlocks = s.numBlocks
      ∧ s.eltAlloc.2.blocks2free = s.blocks2free
      ∧ s.eltAlloc.2.currBlockAvailElts = s.currBlockAvailElts)
    ∧ (s.freeEltList = [] → 0 < s.currBlockAvailElts →
      s.eltAlloc.1 = (s.numBlocks - 1, s.blockSize - s.currBlockAvailElts)
      ∧ s.eltAlloc.2.numBlocks = s.numBlocks
      ∧ s.eltAlloc.2.blocks2free = s.blocks2free
      ∧ s.eltAlloc.2.currBlockAvailElts = s.currBlockAvailElts - 1)
    ∧ (s.freeEltList = [] → s.currBlockAvailElts = 0 →
      s.eltAlloc.1 = (s.numBlocks, 0)
      ∧ s.eltAlloc.2.numBlocks = s.numBlocks + 1
      ∧ s.eltAlloc.2.blockSize = s.blockSize
      ∧ s.eltAlloc.2.currBlockAvailElts = s.blockSize - 1
      ∧ s.eltAlloc.2.blocks2free
          = (if s.numBlocks = 0 then s.blocks2free
             else (s.numBlocks - 1) :: s.blocks2free)) := by
  refine ⟨?_, ?_, ?_⟩
  · intro h rest hf
    simp [qGrowHashEltHeap.eltAlloc, hf]
  · intro hf hpos
    simp [qGrowHashEltHeap.eltAlloc, hf, hpos]
  · intro hf hz
    simp [qGrowHashEltHeap.eltAlloc, hf, hz]

/-- C1 witness: the three branches at concrete arena states. -/
theorem eltAlloc_source_order_witness :
    (qGrowHashEltHeap.eltAlloc ⟨8, 1, 3, [(0, 2)], []⟩).1 = (0, 2)
    ∧ (qGrowHashEltHeap.eltAlloc ⟨8, 1, 3, [], []⟩).1 = (0, 5)
    ∧ (qGrowHashEltHeap.eltAlloc ⟨8, 1, 0, [], []⟩).2.numBlocks = 2
    ∧ (qGrowHashEltHeap.eltAlloc ⟨8, 1, 0, [], []⟩).2.blocks2free
        = (if (1 : Nat) = 0 then ([] : List Nat) else [0]) := by
  refine ⟨?_, ?_, ?_, ?_⟩
  · exact ((eltAlloc_source_order ⟨8, 1, 3, [(0, 2)], []⟩).1 (0, 2) [] rfl).1
  · exact ((eltAlloc_source_order ⟨8, 1, 3, [], []⟩).2.1 rfl (by decide)).1
  · exact ((eltAlloc_source_order ⟨8, 1, 0, [], []⟩).2.2 rfl rfl).2.1
  · exact ((eltAlloc_source_order ⟨8, 1, 0, [], []⟩).2.2 rfl rfl).2.2.2.2

/-- C5: after `addElt(k)` returns a reference and the caller writes value
`v` through it, `getElt(k)` returns a reference yielding `v` (indeed the
very reference `addElt` returned, which now stores `(k, v)`). -/
theorem addElt_then_getElt_yields_value (K V : Type) [DecidableEq K]
    (t : qGrowHash K V) (k : K) (v : V) (h1 : Handle) (t1 : qGrowHash K V)
    (hadd : t.addElt k = (h1, t1)) :
    (t1.setVal h1 v).getElt k = some h1 ∧ (t1.setVal h1 v).store h1 = (k, v) := by
  have e1 : h1 = (t.addElt k).1 := by rw [hadd]
  have e2 : t1 = (t.addElt k).2 := by rw [hadd]
  subst e1
  subst e2
  exact ⟨(qGrowHash.addElt_head t k v).1, (qGrowHash.addElt_head t k v).2.1⟩

/-- C5 witness: a concrete insert-then-write-then-lookup round trip. -/
theorem addElt_then_getElt_yields_value_witness :
    ((((qGrowHash.fresh Nat Nat 4 (fun n => n) none 0 0 8).addElt 5).2.setVal
        ((qGrowHash.fresh Nat Nat 4 (fun n => n) none 0 0 8).addElt 5).1 77).getElt 5
      = some ((qGrowHash.fresh Nat Nat 4 (fun n => n) none 0 0 8).addElt 5).1)
    ∧ ((((qGrowHash.fresh Nat Nat 4 (fun n => n) none 0 0 8).addElt 5).2.setVal
        ((qGrowHash.fresh Nat Nat 4 (fun n => n) none 0 0 8).addElt 5).1 77).store
          ((qGrowHash.fresh Nat Nat 4 (fun n => n) none 0 0 8).addElt 5).1 = (5, 77)) :=
  addElt_then_getElt_yields_value Nat Nat
    (qGrowHash.fresh Nat Nat 4 (fun n => n) none 0 0 8) 5 77 _ _ rfl

/-- C4: inserting key `k` twice without intervening removal (writing `v1`
after the first insert, `v2` after the second) leaves the second Element at
the head of the bucket's chain, directly in front of the first, and
`getElt(k)` deterministically returns the most recently inserted Element's
reference, which yields `v2`. -/
theorem getElt_returns_most_recent_duplicate (K V : Type) [DecidableEq K]
    (t : qGrowHash K V) (k : K) (v1 v2 : V) (h1 h2 : Handle)
    (t1 t2 : qGrowHash K V)
    (hadd1 : t.addElt k = (h1, t1))
    (hadd2 : (t1.setVal h1 v1).addElt k = (h2, t2)) :
    (t2.setVal h2 v2).getElt k = some h2
    ∧ (t2.setVal h2 v2).store h2 = (k, v2)
    ∧ t2.hashBuffer (t2.bucketOf k) = h2 :: h1 :: t.hashBuffer (t.bucketOf k) := by
  have e1 : h1 = (t.addElt k).1 := by rw [hadd1]
  have e2 : t1 = (t.addElt k).2 := by rw [hadd1]
  subst e1
  subst e2
  have e3 : h2 = (((t.addElt k).2.setVal (t.addElt k).1 v1).addElt k).1 := by rw [hadd2]
  have e4 : t2 = (((t.addElt k).2.setVal (t.addElt k).1 v1).addElt k).2 := by rw [hadd2]
  subst e3
  subst e4
  obtain ⟨hget, hst, hchain, hbuck⟩ :=
    qGrowHash.addElt_head ((t.addElt k).2.setVal (t.addElt k).1 v1) k v2
  refine ⟨hget, hst, ?_⟩
  rw [hchain]
  have hmid : ((t.addElt k).2.setVal (t.addElt k).1 v1).hashBuffer
      (((t.addElt k).2.setVal (t.addElt k).1 v1).bucketOf k)
      = (t.addElt k).1 :: t.hashBuffer (t.bucketOf k) :=
    (qGrowHash.addElt_head t k v1).2.2.1
  rw [hmid]

/-- C4 witness: two inserts of key `5` with values `7` then `9`; the lookup
returns the second Element's reference and it yields `9`. -/
theorem getElt_returns_most_recent_duplicate_witness :
    (((((qGrowHash.fresh Nat Nat 4 (fun n => n) none 0 0 8).addElt 5).2.setVal
          ((qGrowHash.fresh Nat Nat 4 (fun n => n) none 0 0 8).addElt 5).1 7).addElt 5).2.setVal
        ((((qGrowHash.fresh Nat Nat 4 (fun n => n) none 0 0 8).addElt 5).2.setVal
          ((qGrowHash.fresh Nat Nat 4 (fun n => n) none 0 0 8).addElt 5).1 7).addElt 5).1 9).getElt 5
      = some ((((qGrowHash.fresh Nat Nat 4 (fun n => n) none 0 0 8).addElt 5).2.setVal
          ((qGrowHash.fresh Nat Nat 4 (fun n => n) none 0 0 8).addElt 5).1 7).addElt 5).1 :=
  (getElt_returns_most_recent_duplicate Nat Nat
    (qGrowHash.fresh Nat Nat 4 (fun n => n) none 0 0 8) 5 7 9 _ _ _ _ rfl rfl).1

/-- C3 counterexample: the claim quantifies over *every* table state, but a
state holding key `5` twice (duplicates are permitted) defeats it: `rmElt 5`
reports success yet `getElt 5` still finds the second Element. -/
theorem rmElt_duplicate_counterexample :
    ((((qGrowHash.fresh Nat Nat 4 (fun n => n) none 0 0 8).addElt 5).2.addElt 5).2.rmElt 5).1
      = true
    ∧ ((((qGrowHash.fresh Nat Nat 4 (fun n => n) none 0 0 8).addElt 5).2.addElt 5).2.rmElt 5).2.getElt 5
      ≠ none := by
  decide

/-- C3 (amended): for every table state in which at most one live Element
stores key `k` (in particular whenever `k` was never inserted twice without
removal), a successful `rmElt(k)` makes `getElt(k)` report not-found. -/
theorem rmElt_then_getElt_none (K V : Type) [DecidableEq K]
    (t : qGrowHash K V) (k : K)
    (hdup : t.keyCount k ≤ 1) (hsucc : (t.rmElt k).1 = true) :
    (t.rmElt k).2.getElt k = none := by
  cases hrm : qGrowHash.chainRemoveFirst t.store k (t.hashBuffer (t.bucketOf k)) with
  | none => simp [qGrowHash.rmElt, hrm] at hsucc
  | some p =>
    obtain ⟨h, rest⟩ := p
    have hcnt := qGrowHash.chainRemoveFirst_countP t.store k
      (t.hashBuffer (t.bucketOf k)) h rest hrm
    rw [qGrowHash.keyCount] at hdup
    have hzero : rest.countP (fun h2 => decide ((t.store h2).1 = k)) = 0 := by omega
    have hfind := qGrowHash.chainFind_eq_none t.store k rest hzero
    simp only [qGrowHash.rmElt, hrm]
    have hbuck : (({ t with
        hashBuffer := Function.update t.hashBuffer (t.bucketOf k) rest,
        posHeap := t.posHeap.eltFree h,
        numElts := t.numElts - 1 } : qGrowHash K V)).bucketOf k = t.bucketOf k := rfl
    rw [qGrowHash.getElt, hbuck]
    simpa [Function.update] using hfind

/-- C3 witness: with key `5` present exactly once, removal succeeds and the
subsequent lookup misses. -/
theorem rmElt_then_getElt_none_witness :
    (((qGrowHash.fresh Nat Nat 4 (fun n => n) none 0 0 8).addElt 5).2.rmElt 5).2.getElt 5
      = none :=
  rmElt_then_getElt_none Nat Nat ((qGrowHash.fresh Nat Nat 4 (fun n => n) none 0 0 8).addElt 5).2
    5 (by decide) (by decide)

/-- C9: discarding one tier of the Cache Manager (whether dropping it or
replacing it with a fresh table) leaves every other tier's storage
untouched, and lookups routed to the other tiers return exactly what they
returned before the discard. -/
theorem discardTier_frame (K V : Type) [DecidableEq K]
    (m : qCacheManager K V) (i j : Nat) (repl : Option (qGrowHash K V))
    (k : K) (hne : j ≠ i) :
    (m.discardTier i repl).tiers j = m.tiers j
    ∧ (m.discardTier i repl).tierLookup j k = m.tierLookup j k := by
  have htier : (m.discardTier i repl).tiers j = m.tiers j := by
    simp [qCacheManager.discardTier, hne]
  refine ⟨htier, ?_⟩
  rw [qCacheManager.tierLookup, qCacheManager.tierLookup, htier]

/-- C7: inserting `N` distinct keys into a fresh table whose arena has
block capacity `B` allocates exactly `ceil(N / B)` Blocks; in particular,
with `B = 1024`, inserting `2000` distinct keys allocates exactly 2
Blocks. -/
theorem blocks_allocated_ceil :
    (∀ (K V : Type) (k0 : K) (v0 : V) (bc : Nat)
       (hf : K → Nat) (ini : Option (K → V → V)) (B : Nat), 0 < B →
       ∀ ks : List K, ks.Nodup →
       (qGrowHash.addList (qGrowHash.fresh K V bc hf ini k0 v0 B) ks).posHeap.numBlocks
         = (ks.length + B - 1) / B)
    ∧ (qGrowHash.addList (qGrowHash.fresh Nat Nat 256 (fun n => n) none 0 0 1024)
         (List.range 2000)).posHeap.numBlocks = 2 := by
  have main : ∀ (K V : Type) (k0 : K) (v0 : V) (bc : Nat)
      (hf : K → Nat) (ini : Option (K → V → V)) (B : Nat), 0 < B →
      ∀ ks : List K, ks.Nodup →
      (qGrowHash.addList (qGrowHash.fresh K V bc hf ini k0 v0 B) ks).posHeap.numBlocks
        = (ks.length + B - 1) / B := by
    intro K V k0 v0 bc hf ini B hB ks hnd
    rw [qGrowHash.addList_posHeap]
    have hfresh : (qGrowHash.fresh K V bc hf ini k0 v0 B).posHeap = qGrowHashEltHeap.fresh B := rfl
    rw [hfresh]
    obtain ⟨a, b, c, d⟩ :=
      qGrowHashEltHeap.allocSteps_inv B hB ks.length 0 (qGrowHashEltHeap.fresh B)
        rfl rfl (by simp [qGrowHashEltHeap.fresh]) (by simpa [qGrowHashEltHeap.fresh] using hB)
    exact qGrowHash.eq_ceil_div B _ ks.length _ hB (by omega) d
  refine ⟨main, ?_⟩
  have h2 := main Nat Nat 0 0 256 (fun n => n) none 1024 (by norm_num)
    (List.range 2000) (List.nodup_range 2000)
  rw [h2]
  norm_num

/-- C7 witness: three distinct keys into a fresh table with block capacity
2 allocate `ceil(3/2) = 2` Blocks. -/
theorem blocks_allocated_ceil_witness :
    (qGrowHash.addList (qGrowHash.fresh Nat Nat 4 (fun n => n) none 0 0 2)
        [10, 20, 30]).posHeap.numBlocks = 2 :=
  blocks_allocated_ceil.1 Nat Nat 0 0 4 (fun n => n) none 2 (by decide)
    [10, 20, 30] (by decide)

/-- C6: in every reachable table state, `numElts` equals the count of live
(chain-linked, non-freed) Elements; `addElt` increments it by one, a
successful `rmElt` decrements it by one, a failed `rmElt` changes nothing
at all, and a caller's value write through a reference leaves it unchanged
(`getElt` is pure and cannot change it). -/
theorem numElts_live_count (K V : Type) [DecidableEq K] (k0 : K) (v0 : V) :
    (∀ t : qGrowHash K V, qGrowHash.Reachable K V k0 v0 t → t.numElts = t.liveCount)
    ∧ (∀ (t : qGrowHash K V) (k : K), (t.addElt k).2.numElts = t.numElts + 1)
    ∧ (∀ (t : qGrowHash K V) (k : K), (t.rmElt k).1 = true →
        (t.rmElt k).2.numElts = t.numElts - 1)
    ∧ (∀ (t : qGrowHash K V) (k : K), (t.rmElt k).1 = false → (t.rmElt k).2 = t)
    ∧ (∀ (t : qGrowHash K V) (h : Handle) (v : V), (t.setVal h v).numElts = t.numElts) :=
  ⟨fun t hr => (qGrowHash.reachable_inv k0 v0 t hr).2,
   fun _ _ => rfl,
   fun t k hs => qGrowHash.rmElt_numElts_true t k hs,
   fun t k hf => qGrowHash.rmElt_false_id t k hf,
   fun _ _ _ => rfl⟩

/-- C6 witness: after one insert into a fresh 4-bucket table, `numElts`
equals the live count, and the successful removal of key `5` decrements
`numElts` by one. -/
theorem numElts_live_count_witness :
    ((qGrowHash.fresh Nat Nat 4 (fun n => n) none 0 0 8).addElt 5).2.numElts
      = ((qGrowHash.fresh Nat Nat 4 (fun n => n) none 0 0 8).addElt 5).2.liveCount
    ∧ (((qGrowHash.fresh Nat Nat 4 (fun n => n) none 0 0 8).addElt 5).2.rmElt 5).2.numElts
      = ((qGrowHash.fresh Nat Nat 4 (fun n => n) none 0 0 8).addElt 5).2.numElts - 1 :=
  ⟨(numElts_live_count Nat Nat 0 0).1 _
      (qGrowHash.Reachable.add _ 5
        (qGrowHash.Reachable.fresh 4 (fun n => n) none 8 (by decide))),
   (numElts_live_count Nat Nat 0 0).2.2.1 _ 5 (by decide)⟩

/-- C8: after `M` removals report success, inserting `M` new keys draws all
of its storage from the free list: the arena's set of allocated Blocks (the
current Block counter and the release list) is exactly what it was before,
with zero additional Blocks allocated. -/
theorem freelist_reuse_no_growth (K V : Type) [DecidableEq K]
    (t : qGrowHash K V) (rks aks : List K) (M : Nat)
    (hM : (qGrowHash.rmList t rks).2 = M) (hlen : aks.length = M) :
    (qGrowHash.addList (qGrowHash.rmList t rks).1 aks).posHeap.numBlocks
        = t.posHeap.numBlocks
    ∧ (qGrowHash.addList (qGrowHash.rmList t rks).1 aks).posHeap.blocks2free
        = t.posHeap.blocks2free := by
  obtain ⟨a, b, c⟩ := qGrowHash.rmList_posHeap rks t
  have hfle : aks.length ≤ (qGrowHash.rmList t rks).1.posHeap.freeEltList.length := by
    omega
  obtain ⟨a2, b2, c2⟩ := qGrowHash.addList_no_growth aks (qGrowHash.rmList t rks).1 hfle
  exact ⟨a2.trans a, b2.trans b⟩

/-- C8 witness: a table holding keys `5` and `6`; removing `[5]` (one
success) and inserting `[7]` leaves the Block counter unchanged. -/
theorem freelist_reuse_no_growth_witness :
    (qGrowHash.addList
        (qGrowHash.rmList (((qGrowHash.fresh Nat Nat 4 (fun n => n) none 0 0 8).addElt 5).2.addElt 6).2 [5]).1
        [7]).posHeap.numBlocks
      = (((qGrowHash.fresh Nat Nat 4 (fun n => n) none 0 0 8).addElt 5).2.addElt 6).2.posHeap.numBlocks :=
  (freelist_reuse_no_growth Nat Nat
    (((qGrowHash.fresh Nat Nat 4 (fun n => n) none 0 0 8).addElt 5).2.addElt 6).2
    [5] [7] 1 (by decide) rfl).1

/-- C9 witness: discarding tier 0 of a two-tier manager leaves tier 1's
lookup result unchanged. -/
theorem discardTier_frame_witness :
    ((⟨3, fun _ => none⟩ : qCacheManager Nat Nat).discardTier 0 none).tierLookup 1 7
      = (⟨3, fun _ => none⟩ : qCacheManager Nat Nat).tierLookup 1 7 :=
  (discardTier_frame Nat Nat ⟨3, fun _ => none⟩ 0 1 none 7 (by decide)).2

end Deepquor
